import Mathlib

/-!
Verification of the SmugMug client-selection web scraper
(`src/smugmug_web_scraper.py`, class `SmugMugWebScraper`).

The Python source is shallowly embedded below: the browser page is modelled as a
structure of pure observations (body text, per-selector query results, title, URL),
operations that may raise are modelled with `Option` (where the code catches them
per element) or propagate to the modelled handler, and the stateful loops become
folds or explicit recursion over lists.
-/

namespace SmugScrape

/-- Python substring containment `needle in hay`. -/
def containsStr (hay needle : String) : Bool :=
  decide (needle.toList <:+: hay.toList)

/-- Python `str.lower`, over the character list. -/
def lowerStr (s : String) : String :=
  String.mk (s.toList.map Char.toLower)

/-- Python `str.strip`: drop leading and trailing whitespace. -/
def trimStr (s : String) : String :=
  String.mk (((s.toList.dropWhile Char.isWhitespace).reverse.dropWhile
    Char.isWhitespace).reverse)

/-- Python `str.split` with a one-character separator, over character lists:
empty pieces are kept. -/
def splitOnChar (sep : Char) : List Char → List (List Char)
  | [] => [[]]
  | c :: rest =>
      if c = sep then [] :: splitOnChar sep rest
      else
        match splitOnChar sep rest with
        | [] => [[c]]
        | h :: t => (c :: h) :: t

/-- Python `text.split` on the newline character. -/
def splitLines (s : String) : List String :=
  (splitOnChar (Char.ofNat 10) s.toList).map String.mk

/-! ### Output file (`_setup_output_file`, `_append_result_to_file`) -/

/-- The separator line `"=" * 50` used in the report header. -/
def eqBar : String := String.mk (List.replicate 50 '=')

/-- Content written by `_setup_output_file` (lines 27-47): the header block, written
once at construction.  The timestamp and gallery URL are parameters of the run. -/
def setupHeader (albumName genTime galleryUrl : String) : String :=
  "Images with Comments - " ++ albumName ++ " (Web Scrape)\n" ++
  ("Generated: " ++ genTime ++ "\n") ++
  ("Gallery URL: " ++ galleryUrl ++ "\n") ++
  (eqBar ++ "\n") ++
  "LIVE RESULTS (written as found):\n" ++
  (eqBar ++ "\n\n")

/-- Effect of `_append_result_to_file` (lines 49-57) on the file content: the
filename followed by a newline is appended. -/
def appendResultToFile (content filename : String) : String :=
  content ++ (filename ++ "\n")

/-- File content after the header plus a sequence of successful incremental appends,
in the order the results were found. -/
def fileAfterAppends (albumName genTime galleryUrl : String)
    (filenames : List String) : String :=
  filenames.foldl appendResultToFile (setupHeader albumName genTime galleryUrl)

/-- One line per filename, in order: the expected body of the report. -/
def joinLines (filenames : List String) : String :=
  filenames.foldr (fun f acc => f ++ "\n" ++ acc) ""

theorem string_append_assoc (a b c : String) : a ++ b ++ c = a ++ (b ++ c) := by
  apply String.ext
  simp [String.data_append, List.append_assoc]

theorem string_append_empty (a : String) : a ++ "" = a := by
  apply String.ext
  simp [String.data_append]

theorem foldl_appendResultToFile (filenames : List String) (init : String) :
    filenames.foldl appendResultToFile init = init ++ joinLines filenames := by
  induction filenames generalizing init with
  | nil => simp [joinLines, string_append_empty]
  | cons f rest ih =>
      simp only [List.foldl_cons, joinLines, List.foldr_cons, appendResultToFile] at *
      rw [ih, string_append_assoc]

/-! ### Lightbox walk (`scrape_gallery_comments`, lines 181-226) -/

/-- A comment record as built by `extract_image_comments`. -/
structure CommentRec where
  author : String
  text : String
  timestamp : String
  selector_used : String
  deriving DecidableEq, Repr

/-- The `result_item` dict appended to `self.commented_images`. -/
structure ScanItem where
  filename : String
  comments : List CommentRec
  image_index : Nat
  deriving DecidableEq, Repr

/-- Observable events of the lightbox walk: processing position `i` (0-based),
and pressing the forward-navigation (ArrowRight) key. -/
inductive WalkEvent where
  | visit (i : Nat)
  | press
  deriving DecidableEq, Repr

/-- One iteration of the lightbox for-loop.  `raisesAt i` says per-item extraction
raises at position `i`: then the `except` handler presses ArrowRight when `i` is not
last and no item is recorded.  Otherwise a `ScanItem` is recorded exactly when the
extractor returned comments and the filename is truthy, and ArrowRight is pressed
when `i` is not last. -/
def walkIter (n i : Nat) (raisesAt : Nat → Bool) (commentsAt : Nat → List CommentRec)
    (filenameAt : Nat → String) : List WalkEvent × List ScanItem :=
  if raisesAt i then
    (WalkEvent.visit i :: (if i < n - 1 then [WalkEvent.press] else []), [])
  else
    let found := commentsAt i
    let items :=
      if found = [] then []
      else if filenameAt i = "" then []
      else [⟨filenameAt i, found, i + 1⟩]
    (WalkEvent.visit i :: (if i < n - 1 then [WalkEvent.press] else []), items)

/-- Event trace of the whole walk over `n` enumerated images. -/
def walkTrace (n : Nat) (raisesAt : Nat → Bool) (commentsAt : Nat → List CommentRec)
    (filenameAt : Nat → String) : List WalkEvent :=
  (List.range n).flatMap fun i => (walkIter n i raisesAt commentsAt filenameAt).1

/-- Contents of `self.commented_images` after the walk. -/
def walkResults (n : Nat) (raisesAt : Nat → Bool) (commentsAt : Nat → List CommentRec)
    (filenameAt : Nat → String) : List ScanItem :=
  (List.range n).flatMap fun i => (walkIter n i raisesAt commentsAt filenameAt).2

theorem intersperse_append_singleton (sep : α) (l : List α) (a : α) :
    List.intersperse sep (l ++ [a]) = (l.flatMap fun x => [x, sep]) ++ [a] := by
  induction l with
  | nil => simp [List.intersperse]
  | cons x xs ih =>
      cases h : xs ++ [a] with
      | nil => simp at h
      | cons y t =>
          simp only [List.cons_append, h, List.intersperse, List.flatMap_cons, List.cons_append]
          rw [← h, ih]
          simp

theorem walkIter_fst (n i : Nat) (raisesAt : Nat → Bool)
    (commentsAt : Nat → List CommentRec) (filenameAt : Nat → String) :
    (walkIter n i raisesAt commentsAt filenameAt).1 =
      WalkEvent.visit i :: (if i < n - 1 then [WalkEvent.press] else []) := by
  unfold walkIter
  split <;> rfl

theorem walkTrace_eq_intersperse (n : Nat) (raisesAt : Nat → Bool)
    (commentsAt : Nat → List CommentRec) (filenameAt : Nat → String) :
    walkTrace n raisesAt commentsAt filenameAt =
      List.intersperse WalkEvent.press ((List.range n).map WalkEvent.visit) := by
  cases n with
  | zero => simp [walkTrace]
  | succ m =>
      rw [walkTrace, List.range_succ]
      simp only [List.map_append, List.map_cons, List.map_nil]
      rw [intersperse_append_singleton, List.flatMap_append, List.flatMap_map]
      have hlast : (walkIter (m + 1) m raisesAt commentsAt filenameAt).1 =
          [WalkEvent.visit m] := by
        rw [walkIter_fst]
        simp
      have hmid : ((List.range m).flatMap fun i =>
            (walkIter (m + 1) i raisesAt commentsAt filenameAt).1) =
          (List.range m).flatMap fun i => [WalkEvent.visit i, WalkEvent.press] := by
        apply List.flatMap_congr
        intro i hi
        rw [walkIter_fst]
        rw [List.mem_range] at hi
        simp [Nat.add_sub_cancel, hi]
      simp [hlast, hmid]

theorem walkIter_snd (n i : Nat) (raisesAt : Nat → Bool)
    (commentsAt : Nat → List CommentRec) (filenameAt : Nat → String) :
    (walkIter n i raisesAt commentsAt filenameAt).2 =
      if raisesAt i then []
      else if commentsAt i = [] then []
      else if filenameAt i = "" then []
      else [⟨filenameAt i, commentsAt i, i + 1⟩] := by
  unfold walkIter
  split <;> rfl

/-- C1: for every enumerated image list of length N ≥ 1 and every subset of positions
at which per-item extraction raises an exception, the lightbox walk processes every
position exactly once, in increasing order, pressing the forward-navigation key
exactly once between consecutive positions and never after the last one: the trace
equals the visit sequence interspersed with single presses, for every failure set. -/
theorem lightbox_walk_visits_in_order (n : Nat) (raisesAt : Nat → Bool)
    (commentsAt : Nat → List CommentRec) (filenameAt : Nat → String) (_h : 1 ≤ n) :
    walkTrace n raisesAt commentsAt filenameAt =
      List.intersperse WalkEvent.press ((List.range n).map WalkEvent.visit) :=
  walkTrace_eq_intersperse n raisesAt commentsAt filenameAt

theorem lightbox_walk_visits_in_order_witness :
    1 ≤ 3 ∧ walkTrace 3 (fun i => decide (i = 1)) (fun _ => []) (fun _ => "") =
      List.intersperse WalkEvent.press ((List.range 3).map WalkEvent.visit) :=
  ⟨by decide,
   lightbox_walk_visits_in_order 3 (fun i => decide (i = 1)) (fun _ => []) (fun _ => "")
     (by decide)⟩

/-- C2: after the header is written at construction, each persisted filename is
appended as one line, so after any number of appends the file content is exactly the
header followed by the filenames persisted so far, one per line, in order; in
particular a run that aborts before finalization leaves a file of that shape. -/
theorem output_file_is_header_plus_lines (albumName genTime galleryUrl : String)
    (filenames : List String) :
    fileAfterAppends albumName genTime galleryUrl filenames =
      setupHeader albumName genTime galleryUrl ++ joinLines filenames :=
  foldl_appendResultToFile filenames (setupHeader albumName genTime galleryUrl)

/-- C5: a ScanItem is recorded only when the extractor returned at least one matching
comment record: every entry of commented_images has a non-empty comments list. -/
theorem scan_results_have_comments (n : Nat) (raisesAt : Nat → Bool)
    (commentsAt : Nat → List CommentRec) (filenameAt : Nat → String) :
    ∀ item ∈ walkResults n raisesAt commentsAt filenameAt, item.comments ≠ [] := by
  intro item hmem
  rw [walkResults, List.mem_flatMap] at hmem
  obtain ⟨i, hi, hitem⟩ := hmem
  rw [walkIter_snd] at hitem
  split at hitem
  · simp at hitem
  · split at hitem
    · simp at hitem
    · split at hitem
      · simp at hitem
      · rename_i hr hc hf
        rcases List.mem_singleton.mp hitem with rfl
        simpa using hc

theorem scan_results_have_comments_witness :
    (⟨"a.jpg", [⟨"Clair Polleti", "nice", "", "sel"⟩], 1⟩ : ScanItem) ∈
        walkResults 1 (fun _ => false)
          (fun _ => [⟨"Clair Polleti", "nice", "", "sel"⟩]) (fun _ => "a.jpg") ∧
      (⟨"a.jpg", [⟨"Clair Polleti", "nice", "", "sel"⟩], 1⟩ : ScanItem).comments ≠ [] :=
  ⟨by decide,
   scan_results_have_comments 1 (fun _ => false)
     (fun _ => [⟨"Clair Polleti", "nice", "", "sel"⟩]) (fun _ => "a.jpg")
     ⟨"a.jpg", [⟨"Clair Polleti", "nice", "", "sel"⟩], 1⟩ (by decide)⟩

/-! ### Lazy-load scroll loop (`scrape_gallery_comments`, lines 106-130) -/

/-- State of the scroll loop: `lastCount` and `scrollAttempts` are the Python locals,
`scrolls` counts every scroll performed (instrumentation), `t` indexes the reads. -/
structure ScrollState where
  lastCount : Nat
  scrollAttempts : Nat
  scrolls : Nat
  t : Nat
  deriving DecidableEq, Repr

/-- Initial state: `last_count = 0`, `scroll_attempts = 0`. -/
def scrollInit : ScrollState := ⟨0, 0, 0, 0⟩

/-- One pass of the while loop; `counts t` is the image count returned by the t-th
`query_selector_all` read.  Returns `none` when the loop exits: either the guard
`scroll_attempts < max_scroll_attempts` fails, or the body breaks because the count
was unchanged and `scroll_attempts >= 3`.  Otherwise `scroll_attempts` is reset to 0
when the count changed, the page is scrolled, and `scroll_attempts` is incremented. -/
def scrollStep (counts : Nat → Nat) (s : ScrollState) : Option ScrollState :=
  if s.scrollAttempts < 20 then
    if counts s.t = s.lastCount ∧ 3 ≤ s.scrollAttempts then none
    else
      some ⟨counts s.t,
        (if counts s.t = s.lastCount then s.scrollAttempts else 0) + 1,
        s.scrolls + 1, s.t + 1⟩
  else none

/-- Run the loop for at most `fuel` passes; the Bool is true when the loop exited. -/
def scrollRun (counts : Nat → Nat) : Nat → ScrollState → ScrollState × Bool
  | 0, s => (s, false)
  | fuel + 1, s =>
      match scrollStep counts s with
      | none => (s, true)
      | some s2 => scrollRun counts fuel s2

theorem scrollRun_add (counts : Nat → Nat) (f1 f2 : Nat) (s : ScrollState) :
    scrollRun counts (f1 + f2) s =
      (if (scrollRun counts f1 s).2 = true then scrollRun counts f1 s
       else scrollRun counts f2 (scrollRun counts f1 s).1) := by
  induction f1 generalizing s with
  | zero =>
      rw [Nat.zero_add]
      simp [scrollRun]
  | succ m ih =>
      rw [Nat.succ_add]
      cases h : scrollStep counts s with
      | none => simp [scrollRun, h]
      | some s2 => simp [scrollRun, h, ih s2]

theorem scrollStep_some (counts : Nat → Nat) (s s2 : ScrollState)
    (h : scrollStep counts s = some s2) :
    s2.lastCount = counts s.t ∧ s2.t = s.t + 1 ∧
      s2.scrollAttempts =
        (if counts s.t = s.lastCount then s.scrollAttempts else 0) + 1 ∧
      ¬(counts s.t = s.lastCount ∧ 3 ≤ s.scrollAttempts) := by
  unfold scrollStep at h
  split at h
  · split at h
    · exact absurd h (by simp)
    · rename_i hbrk
      injection h with h2
      subst h2
      exact ⟨rfl, rfl, rfl, hbrk⟩
  · exact absurd h (by simp)

theorem scrollRun_t_of_not_done (counts : Nat → Nat) (fuel : Nat) :
    ∀ s : ScrollState, (scrollRun counts fuel s).2 = false →
      (scrollRun counts fuel s).1.t = s.t + fuel := by
  induction fuel with
  | zero =>
      intro s _
      simp [scrollRun]
  | succ m ih =>
      intro s hfar
      rw [scrollRun] at hfar ⊢
      cases h : scrollStep counts s with
      | none => simp [h] at hfar
      | some s2 =>
          simp only [h] at hfar ⊢
          rw [ih s2 hfar, (scrollStep_some counts s s2 h).2.1]
          omega

theorem scrollRun_stable_aux (counts : Nat → Nat) (T : Nat)
    (hstable : ∀ t, T ≤ t → counts t = counts T) :
    ∀ k u, T ≤ u.t → u.lastCount = counts T → 3 ≤ u.scrollAttempts + k →
      (scrollRun counts (k + 1) u).2 = true := by
  intro k
  induction k with
  | zero =>
      intro u ht hlast hatt
      rw [scrollRun]
      cases h : scrollStep counts u with
      | none => rfl
      | some s2 =>
          exfalso
          have hs := scrollStep_some counts u s2 h
          exact hs.2.2.2 ⟨by rw [hstable u.t ht, hlast], by omega⟩
  | succ m ih =>
      intro u ht hlast hatt
      rw [scrollRun]
      cases h : scrollStep counts u with
      | none => rfl
      | some s2 =>
          have hs := scrollStep_some counts u s2 h
          have hc : counts u.t = u.lastCount := by rw [hstable u.t ht, hlast]
          apply ih s2
          · omega
          · rw [hs.1, hstable u.t ht]
          · rw [hs.2.2.1, if_pos hc]
            omega

theorem scrollRun_stable_from (counts : Nat → Nat) (T : Nat)
    (hstable : ∀ t, T ≤ t → counts t = counts T) :
    ∀ s : ScrollState, T ≤ s.t → (scrollRun counts 5 s).2 = true := by
  intro s ht
  rw [show (5 : Nat) = 4 + 1 from rfl, Nat.add_comm 4 1, scrollRun]
  cases h : scrollStep counts s with
  | none => rfl
  | some s2 =>
      have hs := scrollStep_some counts s s2 h
      apply scrollRun_stable_aux counts T hstable 3 s2
      · omega
      · rw [hs.1, hstable s.t ht]
      · omega

/-- C4 counterexample: on a per-scroll image count that grows at every read, the
loop is still running after 25 passes and has performed 25 scroll attempts in total,
because `scroll_attempts` is reset to 0 whenever the count changes: the ceiling of 20
bounds only consecutive attempts without a count change, not total attempts. -/
theorem scroll_loop_exceeds_total_ceiling :
    (scrollRun (fun t => t + 1) 25 scrollInit).2 = false ∧
      (scrollRun (fun t => t + 1) 25 scrollInit).1.scrolls = 25 := by
  decide

/-- C4 amended: the loop stops when the count is unchanged from the previous read
after at least 3 scroll attempts since the last change, or after 20 consecutive
attempts without a count change; given a count sequence that is stable from read T
onward, the loop terminates within T + 5 passes. -/
theorem scroll_loop_terminates_on_stable_counts (counts : Nat → Nat) (T : Nat)
    (hstable : ∀ t, T ≤ t → counts t = counts T) :
    (scrollRun counts (T + 5) scrollInit).2 = true := by
  rw [scrollRun_add]
  split
  · assumption
  · rename_i hnot
    apply scrollRun_stable_from counts T hstable
    rw [scrollRun_t_of_not_done counts T scrollInit (by simpa using hnot)]
    simp [scrollInit]

theorem scroll_loop_terminates_on_stable_counts_witness :
    (scrollRun (fun _ => 7) (0 + 5) scrollInit).2 = true :=
  scroll_loop_terminates_on_stable_counts (fun _ => 7) 0 (fun _ _ => rfl)

/-! ### Deduplication of discovered elements (`scrape_gallery_comments`, lines 142-162) -/

/-- A DOM element as observed through the automation API.  `none` for `text` means
`inner_text` raises; `none` for an attribute means the attribute is null; the
`Raises` flags model `get_attribute` raising, which the loop catches per element.
`y` is the `bounding_box` vertical position (`none`: no box or the call raises). -/
structure DomElem where
  text : Option String := none
  href : Option String := none
  src : Option String := none
  y : Option Int := none
  hrefRaises : Bool := false
  srcRaises : Bool := false
  deriving DecidableEq, Repr

/-- Source-path continuation of the dedup loop body: when the element has no usable
href, register it under its src when that is non-null, non-empty and unseen. -/
def dedupeSrc (acc : List DomElem × List String) (e : DomElem) :
    List DomElem × List String :=
  if e.srcRaises then acc
  else
    match e.src with
    | some s =>
        if s = "" then acc
        else if s ∈ acc.2 then acc
        else (acc.1 ++ [e], acc.2 ++ [s])
    | none => acc

/-- Loop body of the dedup pass: prefer the href when it is readable and contains
"/i-", registering the element only when its key is not in `seen_urls`. -/
def dedupeStep (acc : List DomElem × List String) (e : DomElem) :
    List DomElem × List String :=
  if e.hrefRaises then acc
  else
    match e.href with
    | some h =>
        if containsStr h "/i-" then
          if h ∈ acc.2 then acc else (acc.1 ++ [e], acc.2 ++ [h])
        else dedupeSrc acc e
    | none => dedupeSrc acc e

/-- The deduplicated `unique_elements` list. -/
def dedupe (es : List DomElem) : List DomElem :=
  (es.foldl dedupeStep ([], [])).1

/-- Key under which the src path registers an element, `none` when it is skipped. -/
def elemKeySrc (e : DomElem) : Option String :=
  if e.srcRaises then none
  else
    match e.src with
    | some s => if s = "" then none else some s
    | none => none

/-- The identifying key of an element on the code path of the dedup loop: its href
when readable and containing "/i-", otherwise its non-empty readable src. -/
def elemKey (e : DomElem) : Option String :=
  if e.hrefRaises then none
  else
    match e.href with
    | some h => if containsStr h "/i-" then some h else elemKeySrc e
    | none => elemKeySrc e

theorem dedupeSrc_cases (acc : List DomElem × List String) (x : DomElem) :
    (dedupeSrc acc x = acc ∧ elemKeySrc x = none) ∨
    (∃ k, elemKeySrc x = some k ∧ k ∈ acc.2 ∧ dedupeSrc acc x = acc) ∨
    (∃ k, elemKeySrc x = some k ∧ ¬ k ∈ acc.2 ∧
      dedupeSrc acc x = (acc.1 ++ [x], acc.2 ++ [k])) := by
  unfold dedupeSrc elemKeySrc
  by_cases hr : x.srcRaises = true
  · left
    simp [hr]
  · cases hsrc : x.src with
    | none => left; simp [hr]
    | some s =>
        by_cases hs : s = ""
        · left
          simp [hr, hs]
        · by_cases hmem : s ∈ acc.2
          · right; left
            exact ⟨s, by simp [hr, hs], hmem, by simp [hr, hs, hmem]⟩
          · right; right
            exact ⟨s, by simp [hr, hs], hmem, by simp [hr, hs, hmem]⟩

theorem dedupeStep_cases (acc : List DomElem × List String) (x : DomElem) :
    (dedupeStep acc x = acc ∧ elemKey x = none) ∨
    (∃ k, elemKey x = some k ∧ k ∈ acc.2 ∧ dedupeStep acc x = acc) ∨
    (∃ k, elemKey x = some k ∧ ¬ k ∈ acc.2 ∧
      dedupeStep acc x = (acc.1 ++ [x], acc.2 ++ [k])) := by
  unfold dedupeStep elemKey
  by_cases hr : x.hrefRaises = true
  · left
    simp [hr]
  · cases hhref : x.href with
    | none =>
        simp only [hr, Bool.false_eq_true, if_false]
        exact dedupeSrc_cases acc x
    | some h =>
        by_cases hc : containsStr h "/i-" = true
        · by_cases hmem : h ∈ acc.2
          · right; left
            exact ⟨h, by simp [hr, hc], hmem, by simp [hr, hc, hmem]⟩
          · right; right
            exact ⟨h, by simp [hr, hc], hmem, by simp [hr, hc, hmem]⟩
        · simp only [hr, Bool.false_eq_true, if_false, hc]
          exact dedupeSrc_cases acc x

theorem dedupe_fold_sublist (es : List DomElem) :
    ∀ out seen, ∃ l, (es.foldl dedupeStep (out, seen)).1 = out ++ l ∧ l.Sublist es := by
  induction es with
  | nil =>
      intro out seen
      exact ⟨[], by simp, List.Sublist.refl []⟩
  | cons x es ih =>
      intro out seen
      rw [List.foldl_cons]
      rcases dedupeStep_cases (out, seen) x with ⟨heq, _⟩ | ⟨k, _, _, heq⟩ | ⟨k, _, _, heq⟩
      · rw [heq]
        obtain ⟨l, hl, hsub⟩ := ih out seen
        exact ⟨l, hl, hsub.cons x⟩
      · rw [heq]
        obtain ⟨l, hl, hsub⟩ := ih out seen
        exact ⟨l, hl, hsub.cons x⟩
      · rw [heq]
        obtain ⟨l, hl, hsub⟩ := ih (out ++ [x]) (seen ++ [k])
        exact ⟨x :: l, by simpa using hl, hsub.cons₂ x⟩

theorem dedupe_fold_keys (es : List DomElem) :
    ∀ out seen, out.map elemKey = seen.map some →
      (es.foldl dedupeStep (out, seen)).1.map elemKey =
        (es.foldl dedupeStep (out, seen)).2.map some := by
  induction es with
  | nil =>
      intro out seen h
      simpa using h
  | cons x es ih =>
      intro out seen h
      rw [List.foldl_cons]
      rcases dedupeStep_cases (out, seen) x with ⟨heq, _⟩ | ⟨k, _, _, heq⟩ | ⟨k, hk, _, heq⟩
      · rw [heq]; exact ih out seen h
      · rw [heq]; exact ih out seen h
      · rw [heq]
        apply ih (out ++ [x]) (seen ++ [k])
        simp [h, hk]

theorem dedupe_fold_seen_nodup (es : List DomElem) :
    ∀ out seen, seen.Nodup → (es.foldl dedupeStep (out, seen)).2.Nodup := by
  induction es with
  | nil =>
      intro out seen h
      simpa using h
  | cons x es ih =>
      intro out seen h
      rw [List.foldl_cons]
      rcases dedupeStep_cases (out, seen) x with ⟨heq, _⟩ | ⟨k, _, _, heq⟩ | ⟨k, _, hmem, heq⟩
      · rw [heq]; exact ih out seen h
      · rw [heq]; exact ih out seen h
      · rw [heq]
        apply ih (out ++ [x]) (seen ++ [k])
        simp [List.nodup_append, h]
        exact hmem

theorem dedupe_fold_first_occ (es : List DomElem) :
    ∀ out seen, ∀ e ∈ (es.foldl dedupeStep (out, seen)).1,
      e ∈ out ∨ ∃ k, elemKey e = some k ∧ ¬ k ∈ seen ∧
        es.find? (fun x => elemKey x == some k) = some e := by
  induction es with
  | nil =>
      intro out seen e he
      left
      simpa using he
  | cons x es ih =>
      intro out seen e he
      rw [List.foldl_cons] at he
      rcases dedupeStep_cases (out, seen) x with ⟨heq, hkey⟩ | ⟨k0, hk0, hk0mem, heq⟩ |
        ⟨k0, hk0, hk0mem, heq⟩
      · rw [heq] at he
        rcases ih out seen e he with hout | ⟨k, hke, hks, hfind⟩
        · exact Or.inl hout
        · refine Or.inr ⟨k, hke, hks, ?_⟩
          rw [List.find?_cons_of_neg, hfind]
          simp [hkey]
      · rw [heq] at he
        rcases ih out seen e he with hout | ⟨k, hke, hks, hfind⟩
        · exact Or.inl hout
        · refine Or.inr ⟨k, hke, hks, ?_⟩
          rw [List.find?_cons_of_neg, hfind]
          simp [hk0]
          intro hkk
          exact hks (by rw [hkk] at hk0mem; exact hk0mem)
      · rw [heq] at he
        rcases ih (out ++ [x]) (seen ++ [k0]) e he with hout | ⟨k, hke, hks, hfind⟩
        · rw [List.mem_append] at hout
          rcases hout with hout | hx
          · exact Or.inl hout
          · rw [List.mem_singleton] at hx
            subst hx
            refine Or.inr ⟨k0, hk0, hk0mem, ?_⟩
            rw [List.find?_cons_of_pos]
            simp [hk0]
        · refine Or.inr ⟨k, hke, ?_, ?_⟩
          · intro hk
            exact hks (by simp [hk])
          · rw [List.find?_cons_of_neg, hfind]
            simp [hk0]
            intro hkk
            exact hks (by simp [hkk])

/-- C3: the dedup pass keeps a subsequence of the discovered elements in which every
retained element has an identifying key (its href when that contains "/i-", otherwise
its src), no two retained elements share a key, and each retained element is the
first element of the input sequence carrying its key. -/
theorem dedup_unique_by_key (es : List DomElem) (e : DomElem) (he : e ∈ dedupe es) :
    (dedupe es).Sublist es ∧ ((dedupe es).map elemKey).Nodup ∧
      (elemKey e).isSome = true ∧
      es.find? (fun x => elemKey x == elemKey e) = some e := by
  refine ⟨?_, ?_, ?_, ?_⟩
  · obtain ⟨l, hl, hsub⟩ := dedupe_fold_sublist es [] []
    rw [dedupe, hl]
    simpa using hsub
  · have hkeys := dedupe_fold_keys es [] [] (by simp)
    have hnd := dedupe_fold_seen_nodup es [] [] (by simp)
    rw [dedupe, hkeys]
    exact List.Nodup.map (Option.some_injective String) hnd
  · rcases dedupe_fold_first_occ es [] [] e he with h0 | ⟨k, hk, _, _⟩
    · simp at h0
    · simp [hk]
  · rcases dedupe_fold_first_occ es [] [] e he with h0 | ⟨k, hk, _, hfind⟩
    · simp at h0
    · rw [hk]
      exact hfind

/-- Concrete elements for the dedup witness: a duplicated href link and an img. -/
def wElem : DomElem := { href := some "/i-abc" }

/-- Concrete input list for the dedup witness. -/
def wList : List DomElem := [wElem, wElem, { src := some "photo.jpg" }]

theorem dedup_unique_by_key_witness :
    wElem ∈ dedupe wList ∧
      ((dedupe wList).Sublist wList ∧ ((dedupe wList).map elemKey).Nodup ∧
        (elemKey wElem).isSome = true ∧
        wList.find? (fun x => elemKey x == elemKey wElem) = some wElem) :=
  ⟨by decide, dedup_unique_by_key wList wElem (by decide)⟩

/-! ### Comment extraction (`extract_image_comments`, lines 246-339) -/

/-- The rendered page as observed through the automation API.  `bodyText = none`
models `page.evaluate` raising when the body text is retrieved; `selResults sel` is
the element list returned by `query_selector_all sel` (with `query_selector` taking
its head); `title` and `url` are the page title and current URL. -/
structure Page where
  bodyText : Option String := none
  selResults : String → List DomElem := fun _ => []
  title : String := ""
  url : String := ""

/-- The hardcoded reviewer-name variants searched for (line 258). -/
def targetNames : List String := ["clair polleti", "clair", "polleti"]

/-- Coarse check: does the lowercased text contain any reviewer-name variant? -/
def hasTargetName (t : String) : Bool :=
  targetNames.any fun n => containsStr (lowerStr t) n

/-- The prioritized candidate selectors for comment containers (lines 265-277). -/
def commentSelectors : List String :=
  [".sm-comments .sm-comment",
   ".comments .comment",
   ".sm-user-ui-comments .sm-user-ui-comment",
   "[class*=\"comment\"]",
   "[id*=\"comment\"]",
   ".sm-comment",
   ".sm-comments",
   "div[class*=\"user\"]",
   "div[class*=\"message\"]",
   "span[class*=\"comment\"]",
   "p[class*=\"comment\"]"]

/-- Filter applied to each candidate element (lines 286-293): its `inner_text` must
not raise, be truthy, and contain a reviewer-name variant. -/
def elemTextMatches (el : DomElem) : Bool :=
  match el.text with
  | some t => if t = "" then false else hasTargetName t
  | none => false

/-- The first candidate selector yielding at least one matching element (the loop at
lines 282-295 breaks at it). -/
def foundSelector (pg : Page) : Option String :=
  commentSelectors.find? fun sel =>
    !((pg.selResults sel).filter elemTextMatches).isEmpty

/-- Structured extraction over the matched elements (lines 301-312): each element
whose text is present and matches yields a record with the literal author name, the
stripped text, an empty timestamp and the winning selector. -/
def structuredComments (els : List DomElem) (sel : String) : List CommentRec :=
  els.filterMap fun el =>
    match el.text with
    | some t =>
        if t = "" then none
        else if hasTargetName t = true then
          some ⟨"Clair Polleti", trimStr t, "", sel⟩
        else none
    | none => none

/-- Text-block fallback (lines 315-328): split the page text on newlines, keep
stripped blocks that are truthy, longer than 10 characters and contain a
reviewer-name variant. -/
def fallbackComments (allText : String) : List CommentRec :=
  (splitLines allText).filterMap fun block =>
    if trimStr block ≠ "" ∧ 10 < (trimStr block).toList.length ∧
        hasTargetName (trimStr block) = true then
      some ⟨"Clair Polleti", trimStr block, "", "text_search"⟩
    else none

/-- Result of the structured-selector phase: the matching elements of the winning
selector turned into records, empty when no selector matched. -/
def structuredPhase (pg : Page) : List CommentRec :=
  match foundSelector pg with
  | some sel => structuredComments ((pg.selResults sel).filter elemTextMatches) sel
  | none => []

/-- Body of `extract_image_comments` without the outer exception handler: `error`
carries the comments accumulated when an operation raised (only the body-text
retrieval can raise before the handler in this model, with `comments` still empty). -/
def extractBodyE (pg : Page) : Except (List CommentRec) (List CommentRec) :=
  match pg.bodyText with
  | none => Except.error []
  | some allText =>
      if hasTargetName allText = true then
        if structuredPhase pg = [] then Except.ok (fallbackComments allText)
        else Except.ok (structuredPhase pg)
      else Except.ok []

/-- The full `extract_image_comments`: the outer handler (lines 336-338) catches any
exception and the function returns the comments accumulated so far. -/
def extract_image_comments (pg : Page) : List CommentRec :=
  match extractBodyE pg with
  | Except.ok cs => cs
  | Except.error cs => cs

theorem structuredComments_author (els : List DomElem) (sel : String) :
    ∀ c ∈ structuredComments els sel, c.author = "Clair Polleti" := by
  intro c hc
  rw [structuredComments, List.mem_filterMap] at hc
  obtain ⟨el, hel, hsome⟩ := hc
  split at hsome
  · split_ifs at hsome
    injection hsome with h
    subst h
    rfl
  · exact absurd hsome (by simp)

theorem fallbackComments_author (allText : String) :
    ∀ c ∈ fallbackComments allText, c.author = "Clair Polleti" := by
  intro c hc
  rw [fallbackComments, List.mem_filterMap] at hc
  obtain ⟨block, hblock, hsome⟩ := hc
  split_ifs at hsome
  injection hsome with h
  subst h
  rfl

theorem structuredPhase_author (pg : Page) :
    ∀ c ∈ structuredPhase pg, c.author = "Clair Polleti" := by
  intro c hc
  unfold structuredPhase at hc
  split at hc
  · exact structuredComments_author _ _ c hc
  · exact absurd hc (by simp)

theorem extractBodyE_error_nil (pg : Page) (cs : List CommentRec)
    (h : extractBodyE pg = Except.error cs) : cs = [] := by
  unfold extractBodyE at h
  split at h
  · injection h with h2
    exact h2.symm
  · split_ifs at h

/-- C6: when the page's full text, lowercased, contains none of the reviewer-name
variants, extract_image_comments returns the empty list: the structured probe and
the text-block fallback are never reached. -/
theorem extract_empty_without_reviewer_name (pg : Page) (allText : String)
    (hbody : pg.bodyText = some allText)
    (hnone : ∀ n ∈ targetNames, containsStr (lowerStr allText) n = false) :
    extract_image_comments pg = [] := by
  have hname : hasTargetName allText = false := by
    unfold hasTargetName
    rw [List.any_eq_false]
    intro n hn
    simp [hnone n hn]
  unfold extract_image_comments extractBodyE
  rw [hbody]
  simp [hname]

theorem extract_empty_without_reviewer_name_witness :
    extract_image_comments { bodyText := some "hello world" } = [] :=
  extract_empty_without_reviewer_name { bodyText := some "hello world" } "hello world"
    rfl (by decide)

/-- C7: on a page whose text has the line "Clair Polleti said: great shot" while no
structured comment-container selector yields a matching element, extraction is
non-empty and the line-block fallback produces a record whose text contains
"great shot". -/
theorem extract_fallback_finds_great_shot (pg : Page) (allText : String)
    (hbody : pg.bodyText = some allText)
    (hline : "Clair Polleti said: great shot" ∈ splitLines allText)
    (hname : hasTargetName allText = true)
    (hstruct : ∀ sel ∈ commentSelectors, ∀ el ∈ pg.selResults sel,
      elemTextMatches el = false) :
    extract_image_comments pg ≠ [] ∧
      ∃ c ∈ extract_image_comments pg, containsStr c.text "great shot" = true := by
  have hfs : foundSelector pg = none := by
    unfold foundSelector
    rw [List.find?_eq_none]
    intro sel hsel
    have hnilf : (pg.selResults sel).filter elemTextMatches = [] := by
      apply List.filter_eq_nil_iff.mpr
      intro el hel
      simp [hstruct sel hsel el hel]
    simp [hnilf]
  have hres : extract_image_comments pg = fallbackComments allText := by
    unfold extract_image_comments extractBodyE structuredPhase
    rw [hbody, hfs]
    simp [hname]
  have hmem : (⟨"Clair Polleti", "Clair Polleti said: great shot", "",
      "text_search"⟩ : CommentRec) ∈ fallbackComments allText := by
    rw [fallbackComments, List.mem_filterMap]
    exact ⟨"Clair Polleti said: great shot", hline, by decide⟩
  rw [hres]
  exact ⟨List.ne_nil_of_mem hmem, ⟨_, hmem, by decide⟩⟩

/-- Concrete page for the fallback witness: the line is present and no selector
returns any element. -/
def wNamePage : Page := { bodyText := some "Clair Polleti said: great shot" }

theorem extract_fallback_finds_great_shot_witness :
    extract_image_comments wNamePage ≠ [] ∧
      ∃ c ∈ extract_image_comments wNamePage, containsStr c.text "great shot" = true :=
  extract_fallback_finds_great_shot wNamePage "Clair Polleti said: great shot" rfl
    (by decide) (by decide) (by decide)

/-- C9: every comment record returned by extract_image_comments carries the literal
author "Clair Polleti"; the author is never read from the page. -/
theorem extract_author_is_constant (pg : Page) (c : CommentRec)
    (hc : c ∈ extract_image_comments pg) : c.author = "Clair Polleti" := by
  cases hb : extractBodyE pg with
  | error cs =>
      have hval : extract_image_comments pg = cs := by
        unfold extract_image_comments
        rw [hb]
      rw [hval, extractBodyE_error_nil pg cs hb] at hc
      exact absurd hc (by simp)
  | ok cs =>
      have hval : extract_image_comments pg = cs := by
        unfold extract_image_comments
        rw [hb]
      rw [hval] at hc
      unfold extractBodyE at hb
      split at hb
      · exact absurd hb (by simp)
      · split_ifs at hb with hname hemp
        · injection hb with hb2
          subst hb2
          rename_i allText heq
          exact fallbackComments_author allText c hc
        · injection hb with hb2
          subst hb2
          exact structuredPhase_author pg c hc
        · injection hb with hb2
          subst hb2
          exact absurd hc (by simp)

theorem extract_author_is_constant_witness :
    (⟨"Clair Polleti", "Clair Polleti said: great shot", "", "text_search"⟩ :
        CommentRec) ∈ extract_image_comments wNamePage ∧
      (⟨"Clair Polleti", "Clair Polleti said: great shot", "", "text_search"⟩ :
        CommentRec).author = "Clair Polleti" :=
  ⟨by decide, extract_author_is_constant wNamePage _ (by decide)⟩

/-- C10: extract_image_comments never propagates an exception: for every page,
including those on which text retrieval raises, the returned value is the comment
list the body produced, whether the body completed or raised. -/
theorem extract_never_raises (pg : Page) :
    extractBodyE pg = Except.ok (extract_image_comments pg) ∨
      extractBodyE pg = Except.error (extract_image_comments pg) := by
  unfold extract_image_comments
  cases hb : extractBodyE pg with
  | ok cs => left; rfl
  | error cs => right; rfl

/-! ### Filename resolution (`get_image_filename`, lines 341-414) -/

/-- The overlay-text selectors tried by method 1 (lines 348-357). -/
def overlaySelectors : List String :=
  [".sm-lightbox-overlay-text",
   ".sm-image-overlay",
   ".sm-filename-overlay",
   "[class*=\"overlay\"][class*=\"text\"]",
   "[class*=\"filename\"]",
   ".sm-lightbox-info",
   ".sm-image-title",
   ".sm-image-name"]

/-- Extension alternatives of the filename pattern used by methods 1-3. -/
def fnameExts : List String :=
  ["jpg", "jpeg", "png", "gif", "raw", "dng", "tiff", "bmp", "cr2", "nef", "arw"]

/-- Extension alternatives of the img-src pattern used by method 5. -/
def srcExts : List String :=
  ["jpg", "jpeg", "png", "gif", "raw", "dng", "tiff", "bmp"]

/-- Case-insensitive literal match of an extension at the start of `cs`. -/
def extAt (cs : List Char) (ext : String) : Bool :=
  decide ((cs.take ext.toList.length).map Char.toLower = ext.toList)

/-- First extension alternative (in pattern order) matching at the start of `cs`. -/
def extMatch (exts : List String) (cs : List Char) : Option String :=
  exts.findSome? fun ext => if extAt cs ext then some ext else none

/-- Anchored match of the captured group: characters outside `banned`, then a dot,
then an extension; the greedy star backtracks from the longest candidate run, so the
rightmost dot-plus-extension inside the run wins.  The returned characters keep
their original case. -/
def matchAnchored (banned : List Char) (exts : List String) (cs : List Char) :
    Option (List Char) :=
  (List.range ((cs.takeWhile fun c => !(banned.contains c)).length + 1)).reverse.findSome?
    fun k =>
      match cs.drop k with
      | '.' :: rest =>
          match extMatch exts rest with
          | some ext => some (cs.take k ++ '.' :: rest.take ext.toList.length)
          | none => none
      | _ => none

/-- Leftmost search of the group pattern, as `re.search` does. -/
def searchGroup (banned : List Char) (exts : List String) :
    List Char → Option (List Char)
  | [] => none
  | c :: rest =>
      match matchAnchored banned exts (c :: rest) with
      | some m => some m
      | none => searchGroup banned exts rest

/-- The filename regex of methods 1-3 over a string. -/
def reSearchFilename (s : String) : Option String :=
  (searchGroup ['/', '\\', ':'] fnameExts s.toList).map fun m => String.mk m

/-- Method 5's img-src pattern: a literal slash, then the captured group with no
slash before the dot. -/
def searchSlashGroup (exts : List String) : List Char → Option (List Char)
  | [] => none
  | c :: rest =>
      if c = '/' then
        match matchAnchored ['/'] exts rest with
        | some m => some m
        | none => searchSlashGroup exts rest
      else searchSlashGroup exts rest

def reSearchSrc (s : String) : Option String :=
  (searchSlashGroup srcExts s.toList).map fun m => String.mk m

/-- Method 4's URL pattern: the alphanumeric token after the first "/i-" that is
followed by at least one alphanumeric character. -/
def searchIToken : List Char → Option (List Char)
  | [] => none
  | c :: rest =>
      if c = '/' then
        match rest with
        | 'i' :: '-' :: rest2 =>
            if (rest2.takeWhile fun ch => ch.isAlpha || ch.isDigit) = [] then
              searchIToken rest
            else some (rest2.takeWhile fun ch => ch.isAlpha || ch.isDigit)
        | _ => searchIToken rest
      else searchIToken rest

def reSearchUrlToken (s : String) : Option String :=
  (searchIToken s.toList).map fun m => String.mk m

/-- Outcome of one resolution method: return a filename, raise to the outer
handler, or fall through to the next method. -/
inductive MethodOut where
  | ret (s : String)
  | raised
  | next
  deriving DecidableEq, Repr

/-- Method 1 (lines 359-368): first overlay selector whose element text matches the
filename pattern; a raising `inner_text` escapes to the outer handler. -/
def method1Go (pg : Page) : List String → MethodOut
  | [] => MethodOut.next
  | sel :: rest =>
      match (pg.selResults sel).head? with
      | some el =>
          match el.text with
          | none => MethodOut.raised
          | some t =>
              if t = "" then method1Go pg rest
              else
                match reSearchFilename t with
                | some m => MethodOut.ret m
                | none => method1Go pg rest
      | none => method1Go pg rest

/-- Method 2 (lines 372-385): any div/span/p element with truthy text shorter than
100 characters matching the pattern, positioned below y = 400; every per-element
failure is caught and the loop continues. -/
def method2Go : List DomElem → MethodOut
  | [] => MethodOut.next
  | el :: rest =>
      match el.text with
      | none => method2Go rest
      | some t =>
          if t = "" then method2Go rest
          else if 100 ≤ t.toList.length then method2Go rest
          else
            match reSearchFilename t with
            | some m =>
                match el.y with
                | some yv => if 400 < yv then MethodOut.ret m else method2Go rest
                | none => method2Go rest
            | none => method2Go rest

/-- Method 3 (lines 388-393): the page title, unless falsy or exactly "SmugMug". -/
def method3 (pg : Page) : MethodOut :=
  if pg.title = "" then MethodOut.next
  else if pg.title = "SmugMug" then MethodOut.next
  else
    match reSearchFilename pg.title with
    | some m => MethodOut.ret m
    | none => MethodOut.next

/-- Method 4 (lines 396-399): "Image_" plus the token of the "/i-" URL pattern. -/
def method4 (pg : Page) : MethodOut :=
  match reSearchUrlToken pg.url with
  | some tok => MethodOut.ret ("Image_" ++ tok)
  | none => MethodOut.next

/-- Method 5 (lines 402-408): the src of the first smugmug img element; a raising
`get_attribute` escapes to the outer handler. -/
def method5 (pg : Page) : MethodOut :=
  match (pg.selResults "img[src*=\"smugmug\"]").head? with
  | some el =>
      if el.srcRaises then MethodOut.raised
      else
        match el.src with
        | some s =>
            if s = "" then MethodOut.next
            else
              match reSearchSrc s with
              | some m => MethodOut.ret m
              | none => MethodOut.next
        | none => MethodOut.next
  | none => MethodOut.next

/-- The time-based placeholder used by the final fallback and by the exception
handler (lines 410 and 414). -/
def unknownName (now : String) : String := "Unknown_" ++ now

/-- `get_image_filename`: methods 1-5 in order; any uncaught exception, or all five
methods failing, yields the placeholder. -/
def get_image_filename (pg : Page) (now : String) : String :=
  match method1Go pg overlaySelectors with
  | MethodOut.ret s => s
  | MethodOut.raised => unknownName now
  | MethodOut.next =>
      match method2Go (pg.selResults "div, span, p") with
      | MethodOut.ret s => s
      | MethodOut.raised => unknownName now
      | MethodOut.next =>
          match method3 pg with
          | MethodOut.ret s => s
          | MethodOut.raised => unknownName now
          | MethodOut.next =>
              match method4 pg with
              | MethodOut.ret s => s
              | MethodOut.raised => unknownName now
              | MethodOut.next =>
                  match method5 pg with
                  | MethodOut.ret s => s
                  | MethodOut.raised => unknownName now
                  | MethodOut.next => unknownName now

theorem string_mk_ne_empty (l : List Char) (h : l ≠ []) : String.mk l ≠ "" := by
  intro he
  apply h
  simpa using congrArg String.data he

theorem string_append_ne_empty (a b : String) (h : a.data ≠ []) : a ++ b ≠ "" := by
  intro he
  have h3 : a.data ++ b.data = [] := by
    simpa [String.data_append] using congrArg String.data he
  exact h (List.append_eq_nil.mp h3).1

theorem unknownName_ne_empty (now : String) : unknownName now ≠ "" :=
  string_append_ne_empty "Unknown_" now (by decide)

theorem matchAnchored_ne_nil (banned : List Char) (exts : List String)
    (cs m : List Char) (h : matchAnchored banned exts cs = some m) : m ≠ [] := by
  unfold matchAnchored at h
  obtain ⟨k, hk, hsome⟩ := List.exists_of_findSome?_eq_some h
  split at hsome
  · split at hsome
    · injection hsome with h2
      subst h2
      simp
    · exact absurd hsome (by simp)
  · exact absurd hsome (by simp)

theorem searchGroup_ne_nil (banned : List Char) (exts : List String) :
    ∀ cs m, searchGroup banned exts cs = some m → m ≠ [] := by
  intro cs
  induction cs with
  | nil =>
      intro m h
      exact absurd h (by simp [searchGroup])
  | cons c rest ih =>
      intro m h
      rw [searchGroup] at h
      cases hma : matchAnchored banned exts (c :: rest) with
      | some m0 =>
          simp only [hma] at h
          injection h with h2
          subst h2
          exact matchAnchored_ne_nil banned exts (c :: rest) m0 hma
      | none =>
          simp only [hma] at h
          exact ih m h

theorem searchSlashGroup_ne_nil (exts : List String) :
    ∀ cs m, searchSlashGroup exts cs = some m → m ≠ [] := by
  intro cs
  induction cs with
  | nil =>
      intro m h
      exact absurd h (by simp [searchSlashGroup])
  | cons c rest ih =>
      intro m h
      rw [searchSlashGroup] at h
      split_ifs at h
      · cases hma : matchAnchored ['/'] exts rest with
        | some m0 =>
            simp only [hma] at h
            injection h with h2
            subst h2
            exact matchAnchored_ne_nil ['/'] exts rest m0 hma
        | none =>
            simp only [hma] at h
            exact ih m h
      · exact ih m h

theorem searchIToken_ne_nil : ∀ cs m, searchIToken cs = some m → m ≠ [] := by
  intro cs
  induction cs with
  | nil =>
      intro m h
      exact absurd h (by simp [searchIToken])
  | cons c rest ih =>
      intro m h
      by_cases hsh : ∃ rest2, rest = 'i' :: '-' :: rest2
      · obtain ⟨rest2, rfl⟩ := hsh
        rw [searchIToken.eq_2] at h
        by_cases hc : c = '/'
        · rw [if_pos hc] at h
          split_ifs at h with hemp
          · exact ih m h
          · injection h with h2
            subst h2
            exact hemp
        · rw [if_neg hc] at h
          exact ih m h
      · have hne : ∀ rest2, rest = 'i' :: '-' :: rest2 → False := by
          intro r2 hr2
          exact hsh ⟨r2, hr2⟩
        rw [searchIToken.eq_3 c rest hne, ite_self] at h
        exact ih m h

theorem reSearchFilename_ne_empty (s m : String) (h : reSearchFilename s = some m) :
    m ≠ "" := by
  rw [reSearchFilename, Option.map_eq_some'] at h
  obtain ⟨l, hl, hm⟩ := h
  subst hm
  exact string_mk_ne_empty l (searchGroup_ne_nil _ _ _ l hl)

theorem reSearchSrc_ne_empty (s m : String) (h : reSearchSrc s = some m) :
    m ≠ "" := by
  rw [reSearchSrc, Option.map_eq_some'] at h
  obtain ⟨l, hl, hm⟩ := h
  subst hm
  exact string_mk_ne_empty l (searchSlashGroup_ne_nil _ _ l hl)

theorem method1Go_ret_ne (pg : Page) :
    ∀ sels s, method1Go pg sels = MethodOut.ret s → s ≠ "" := by
  intro sels
  induction sels with
  | nil =>
      intro s h
      exact absurd h (by simp [method1Go])
  | cons sel rest ih =>
      intro s h
      rw [method1Go] at h
      cases hh : (pg.selResults sel).head? with
      | none =>
          simp only [hh] at h
          exact ih s h
      | some el =>
          simp only [hh] at h
          cases ht : el.text with
          | none =>
              simp only [ht] at h
              exact absurd h (by simp)
          | some t =>
              simp only [ht] at h
              split_ifs at h
              · exact ih s h
              · cases hrs : reSearchFilename t with
                | some m =>
                    simp only [hrs] at h
                    injection h with h2
                    subst h2
                    exact reSearchFilename_ne_empty t m hrs
                | none =>
                    simp only [hrs] at h
                    exact ih s h

theorem method2Go_ret_ne :
    ∀ els s, method2Go els = MethodOut.ret s → s ≠ "" := by
  intro els
  induction els with
  | nil =>
      intro s h
      exact absurd h (by simp [method2Go])
  | cons el rest ih =>
      intro s h
      rw [method2Go] at h
      cases ht : el.text with
      | none =>
          simp only [ht] at h
          exact ih s h
      | some t =>
          simp only [ht] at h
          split_ifs at h
          · exact ih s h
          · exact ih s h
          · cases hrs : reSearchFilename t with
            | some m =>
                simp only [hrs] at h
                cases hy : el.y with
                | some yv =>
                    simp only [hy] at h
                    split_ifs at h
                    · injection h with h2
                      subst h2
                      exact reSearchFilename_ne_empty t m hrs
                    · exact ih s h
                | none =>
                    simp only [hy] at h
                    exact ih s h
            | none =>
                simp only [hrs] at h
                exact ih s h

theorem method3_ret_ne (pg : Page) (s : String)
    (h : method3 pg = MethodOut.ret s) : s ≠ "" := by
  rw [method3] at h
  split_ifs at h
  cases hrs : reSearchFilename pg.title with
  | some m =>
      simp only [hrs] at h
      injection h with h2
      subst h2
      exact reSearchFilename_ne_empty pg.title m hrs
  | none =>
      simp only [hrs] at h
      exact absurd h (by simp)

theorem method4_ret_ne (pg : Page) (s : String)
    (h : method4 pg = MethodOut.ret s) : s ≠ "" := by
  rw [method4] at h
  cases hrs : reSearchUrlToken pg.url with
  | some tok =>
      simp only [hrs] at h
      injection h with h2
      subst h2
      exact string_append_ne_empty "Image_" tok (by decide)
  | none =>
      simp only [hrs] at h
      exact absurd h (by simp)

theorem method5_ret_ne (pg : Page) (s : String)
    (h : method5 pg = MethodOut.ret s) : s ≠ "" := by
  rw [method5] at h
  cases hh : (pg.selResults "img[src*=\"smugmug\"]").head? with
  | none =>
      simp only [hh] at h
      exact absurd h (by simp)
  | some el =>
      simp only [hh] at h
      split_ifs at h
      cases hsrc : el.src with
      | none =>
          simp only [hsrc] at h
          exact absurd h (by simp)
      | some src =>
          simp only [hsrc] at h
          split_ifs at h
          cases hrs : reSearchSrc src with
          | some m =>
              simp only [hrs] at h
              injection h with h2
              subst h2
              exact reSearchSrc_ne_empty src m hrs
          | none =>
              simp only [hrs] at h
              exact absurd h (by simp)

/-- C8: get_image_filename returns a non-empty string on every page input, including
pages on which every method fails to match and pages on which an internal operation
raises; when all five methods fail it returns the time-based placeholder. -/
theorem get_image_filename_nonempty (pg : Page) (now : String) :
    get_image_filename pg now ≠ "" ∧
      (method1Go pg overlaySelectors = MethodOut.next →
        method2Go (pg.selResults "div, span, p") = MethodOut.next →
        method3 pg = MethodOut.next →
        method4 pg = MethodOut.next →
        method5 pg = MethodOut.next →
        get_image_filename pg now = unknownName now) := by
  constructor
  · unfold get_image_filename
    cases h1 : method1Go pg overlaySelectors with
    | ret s => exact method1Go_ret_ne pg overlaySelectors s h1
    | raised => exact unknownName_ne_empty now
    | next =>
        cases h2 : method2Go (pg.selResults "div, span, p") with
        | ret s => exact method2Go_ret_ne _ s h2
        | raised => exact unknownName_ne_empty now
        | next =>
            cases h3 : method3 pg with
            | ret s => exact method3_ret_ne pg s h3
            | raised => exact unknownName_ne_empty now
            | next =>
                cases h4 : method4 pg with
                | ret s => exact method4_ret_ne pg s h4
                | raised => exact unknownName_ne_empty now
                | next =>
                    cases h5 : method5 pg with
                    | ret s => exact method5_ret_ne pg s h5
                    | raised => exact unknownName_ne_empty now
                    | next => exact unknownName_ne_empty now
  · intro h1 h2 h3 h4 h5
    unfold get_image_filename
    simp only [h1, h2, h3, h4, h5]

theorem get_image_filename_nonempty_witness :
    get_image_filename {} "120000" ≠ "" ∧
      get_image_filename {} "120000" = unknownName "120000" :=
  ⟨(get_image_filename_nonempty {} "120000").1,
   (get_image_filename_nonempty {} "120000").2 rfl rfl rfl rfl rfl⟩

end SmugScrape
